import Mathlib

/-!
Verification of the term-symbol engine of the jevandezande/quantum repository
(src/quantum/term_symbols.py and src/quantum/orbitals.py).

The Python code is shallowly embedded: the numpy count matrix of a `TermTable`
becomes a `List (List ℤ)` (row-major, row index = (mult - 1) / 2, column index
= angular momentum), electron spins are stored doubled (alpha = +1, beta = -1,
so that all arithmetic stays in ℤ; the Python code stores Fraction(1, 2) and
computes int(2 * abs(spin) + 1), which agrees with natAbs of the doubled spin
plus one), and in-place numpy mutation becomes explicit state passing.
numpy writes through an index that is out of range raise IndexError; the
embedding's `List.set` is a no-op there.  All inputs handled below keep every
write in range, so the two semantics agree on them.
-/

def entry (m : List (List ℤ)) (r c : ℕ) : ℤ :=
  ((m.getD r []).getD c 0)

def setEntry (m : List (List ℤ)) (r c : ℕ) (v : ℤ) : List (List ℤ) :=
  m.set r ((m.getD r []).set c v)

def bump (m : List (List ℤ)) (r c : ℕ) : List (List ℤ) :=
  setEntry m r c (entry m r c + 1)

def rectSub (m : List (List ℤ)) (i j : ℕ) (count : ℤ) : List (List ℤ) :=
  m.mapIdx (fun r row =>
    if r ≤ i then row.mapIdx (fun c v => if c ≤ j then v - count else v) else row)

def colSub (m : List (List ℤ)) (i j : ℕ) (count : ℤ) : List (List ℤ) :=
  m.mapIdx (fun r row =>
    if r ≤ i then row.mapIdx (fun c v => if c = j then v - count else v) else row)

def atomicCleanStep (m : List (List ℤ)) (i j : ℕ) : List (List ℤ) :=
  let count := entry m i j
  setEntry (rectSub m i j count) i j count

def diatomicCleanStep (m : List (List ℤ)) (i j : ℕ) : List (List ℤ) :=
  let count := entry m i j
  setEntry (colSub m i j count) i j count

def cleanIndices (h w : ℕ) : List (ℕ × ℕ) :=
  (List.range h).reverse.flatMap (fun i => (List.range w).reverse.map (fun j => (i, j)))

def atomicCleanMatrix (h w : ℕ) (m : List (List ℤ)) : List (List ℤ) :=
  (cleanIndices h w).foldl (fun acc p => atomicCleanStep acc p.1 p.2) m

def diatomicCleanMatrix (h w : ℕ) (m : List (List ℤ)) : List (List ℤ) :=
  (cleanIndices h w).foldl (fun acc p => diatomicCleanStep acc p.1 p.2) m

inductive OrbitalType where
  | noneType
  | atomic
  | diatomic
deriving DecidableEq

structure TermTable where
  maxMult : ℕ
  maxAm : ℕ
  table : List (List ℤ)
  orbitalType : OrbitalType
  clean : Bool
deriving DecidableEq

def TermTable.width (t : TermTable) : ℕ := t.maxAm + 1

def TermTable.height (t : TermTable) : ℕ := (t.maxMult + 1) / 2

def TermTable.minMult (t : TermTable) : ℕ := (t.maxMult + 1) % 2 + 1

def mkAtomicTermTable (maxMult maxAm : ℕ) (clean : Bool) : TermTable :=
  { maxMult := maxMult
    maxAm := maxAm
    table := List.replicate ((maxMult + 1) / 2) (List.replicate (maxAm + 1) (0 : ℤ))
    orbitalType := OrbitalType.atomic
    clean := clean }

def mkDiatomicTermTable (maxMult maxAm : ℕ) (clean : Bool) : TermTable :=
  { maxMult := maxMult
    maxAm := maxAm
    table := List.replicate ((maxMult + 1) / 2) (List.replicate (maxAm + 1) (0 : ℤ))
    orbitalType := OrbitalType.diatomic
    clean := false }

def atomicCleanedTT (t : TermTable) : TermTable :=
  { t with table := atomicCleanMatrix t.height t.width t.table, clean := true }

def diatomicCleanedTT (t : TermTable) : TermTable :=
  { t with table := diatomicCleanMatrix t.height t.width t.table, clean := true }

def eqTT (a b : TermTable) : Bool :=
  if a.maxAm ≠ b.maxAm ∨ a.maxMult ≠ b.maxMult then false
  else if ¬ (a.table = b.table) then false
  else true

def wellFormedTT (t : TermTable) : Prop :=
  t.table.length = t.height ∧ ∀ row ∈ t.table, row.length = t.width

def p2RawTable : TermTable :=
  { maxMult := 3
    maxAm := 2
    table := [[3, 2, 1], [1, 1, 0]]
    orbitalType := OrbitalType.atomic
    clean := false }

def isOkE {ε α : Type} : Except ε α → Bool
  | Except.ok _ => true
  | Except.error _ => false

inductive SpinArg where
  | num (q : ℚ)
  | label (s : String)

inductive AmArg where
  | num (v : ℤ)
  | letter (c : Char)

def atomicAmSymbols : List Char := "spdfghiklmnoqrtuvwxyz".toList

def diatomicAmSymbols : List Char := "σπδφγηικμνo".toList

structure Orbital where
  n : ℤ
  l : ℤ
  ml : ℤ
  spin : ℚ
deriving DecidableEq

def mkOrbital (n l ml : ℤ) (spin : SpinArg) : Except String Orbital :=
  if n < 1 then Except.error "Shells are integers starting at 1"
  else if l < 0 then Except.error "Orbitals are ints >=0 or the appropriate string"
  else if l < ml then Except.error "Angular momentum (ml) is a positive integer such that -l <= ml <= l"
  else
    match spin with
    | SpinArg.num q =>
      if q = 1 ∨ q = 1 / 2 then Except.ok { n := n, l := l, ml := ml, spin := 1 / 2 }
      else if q = -1 ∨ q = -(1 / 2) then Except.ok { n := n, l := l, ml := ml, spin := -(1 / 2) }
      else Except.error "Invalid spin"
    | SpinArg.label s =>
      if s = "alpha" then Except.ok { n := n, l := l, ml := ml, spin := 1 / 2 }
      else if s = "beta" then Except.ok { n := n, l := l, ml := ml, spin := -(1 / 2) }
      else Except.error "Invalid spin"

def mkAtomicSpinOrbital (n : ℤ) (l : AmArg) (ml : ℤ) (spin : SpinArg) : Except String Orbital :=
  match (match l with
         | AmArg.num v => Except.ok v
         | AmArg.letter c =>
           match atomicAmSymbols.findIdx? (fun d => d = c) with
           | some i => Except.ok (i : ℤ)
           | none => Except.error "Invalid orbital") with
  | Except.error e => Except.error e
  | Except.ok lv =>
    if n - lv < 1 then Except.error "Invalid subshell"
    else mkOrbital n lv ml spin

def mkDiatomicSpinOrbital (n : ℤ) (l : AmArg) (ml : ℤ) (spin : SpinArg) : Except String Orbital :=
  match (match l with
         | AmArg.num v => Except.ok v
         | AmArg.letter c =>
           match diatomicAmSymbols.findIdx? (fun d => d = c) with
           | some i => Except.ok (i : ℤ)
           | none =>
             match atomicAmSymbols.findIdx? (fun d => d = c) with
             | some i => Except.ok (i : ℤ)
             | none => Except.error "Invalid orbital") with
  | Except.error e => Except.error e
  | Except.ok lv =>
    match mkOrbital n lv ml spin with
    | Except.error e => Except.error e
    | Except.ok orb =>
      if ¬ (|ml| = lv) then Except.error "Diatomic orbitals may only have ml = +- l"
      else Except.ok orb

def rangeDown : ℕ → ℤ → List ℤ
  | 0, _ => []
  | n + 1, a => a :: rangeDown n (a - 1)

def atomicSpinOrbitals (l : ℕ) : List (ℤ × ℤ) :=
  (rangeDown (2 * l + 1) (l : ℤ)).flatMap (fun ml => [(ml, 1), (ml, -1)])

def combinations {α : Type} : ℕ → List α → List (List α)
  | 0, _ => [[]]
  | _ + 1, [] => []
  | k + 1, x :: xs => ((combinations k xs).map (fun c => x :: c)) ++ combinations (k + 1) xs

def calcVals (orbs : List (ℤ × ℤ)) : ℤ × ℤ :=
  ((orbs.map Prod.fst).sum, (orbs.map Prod.snd).sum)

def pySumRange (s t : ℤ) : ℤ :=
  ((List.range (t - s).toNat).map (fun (j : ℕ) => s + (j : ℤ))).sum

def subshellMaxAm (l e : ℕ) : ℤ :=
  pySumRange ((l : ℤ) - (((e + 1) / 2 : ℕ) : ℤ) + 1) ((l : ℤ) + 1)
    + pySumRange ((l : ℤ) - ((e / 2 : ℕ) : ℤ) + 1) ((l : ℤ) + 1)

def subshellMaxMult (l e : ℕ) : ℕ :=
  if e ≤ 2 * l + 1 then e + 1 else 4 * l + 3 - e

def tallyCombos (combos : List (List (ℤ × ℤ))) (m0 : List (List ℤ)) : List (List ℤ) :=
  combos.foldl
    (fun m co =>
      let v := calcVals co
      if v.1 < 0 ∨ v.2 < 0 then m
      else bump m (v.2.natAbs / 2) v.1.natAbs)
    m0

def subshellMatrix (l e : ℕ) : List (List ℤ) :=
  tallyCombos (combinations e (atomicSpinOrbitals l))
    (List.replicate ((subshellMaxMult l e + 1) / 2)
      (List.replicate ((subshellMaxAm l e).toNat + 1) (0 : ℤ)))

def subshellTerms (shell l e : ℕ) : TermTable :=
  { maxMult := subshellMaxMult l e
    maxAm := (subshellMaxAm l e).toNat
    table := subshellMatrix l e
    orbitalType := OrbitalType.atomic
    clean := false }

def allAtomicTermTables (maxAm : ℕ) : List TermTable :=
  (List.range maxAm).flatMap
    (fun am => (List.range' 1 (2 * am + 1)).map (fun e => subshellTerms (am + 1) am e))

def pyRowIdx (mult : ℤ) : ℤ := Int.fdiv (mult - 1) 2

def addTT (m : List (List ℤ)) (h : ℕ) (mult : ℤ) (am : ℕ) (v : ℤ) : List (List ℤ) :=
  let i := pyRowIdx mult
  let r := (if i < 0 then i + (h : ℤ) else i).toNat
  setEntry m r am (entry m r am + v)

def mulTT (A B : TermTable) : TermTable :=
  let maxMult := A.maxMult + B.maxMult - 1
  let maxAm := A.maxAm + B.maxAm
  let h := (maxMult + 1) / 2
  let init : List (List ℤ) := List.replicate h (List.replicate (maxAm + 1) (0 : ℤ))
  let tbl := A.table.enum.foldl (fun m1 iRow =>
    let i := iRow.1
    iRow.2.enum.foldl (fun m2 jCount =>
      let count := jCount.2
      let mult : ℤ := (A.minMult : ℤ) + 2 * (i : ℤ)
      let am : ℕ := jCount.1
      B.table.enum.foldl (fun m3 kRow =>
        kRow.2.enum.foldl (fun m4 lCount =>
          let ocount := lCount.2
          let omult : ℤ := (B.minMult : ℤ) + 2 * (i : ℤ)
          let oam : ℕ := lCount.1
          let m5 := addTT m4 h (mult + omult - 1) (am + oam) (count * ocount)
          let m6 :=
            if 1 < mult ∧ 1 < omult ∧ 3 < mult + omult then
              addTT m5 h (|mult - omult + 1|) (am + oam) (count * ocount)
            else m5
          if 0 < am ∧ 0 < oam then
            let m7 := addTT m6 h (mult + omult - 1) ((am : ℤ) - (oam : ℤ)).natAbs
              (count * ocount)
            if 1 < mult ∧ 1 < omult ∧ 3 < mult + omult then
              addTT m7 h (|mult - omult + 1|) ((am : ℤ) - (oam : ℤ)).natAbs
                (count * ocount)
            else m7
          else m6) m3) m2) m1) init
  { maxMult := maxMult
    maxAm := maxAm
    table := tbl
    orbitalType := OrbitalType.noneType
    clean := false }

def singletTable : TermTable :=
  { maxMult := 3, maxAm := 0, table := [[1], [0]]
    orbitalType := OrbitalType.atomic, clean := false }

def tripletTable : TermTable :=
  { maxMult := 3, maxAm := 0, table := [[0], [1]]
    orbitalType := OrbitalType.atomic, clean := false }

def dummyTT : TermTable :=
  { maxMult := 1, maxAm := 0, table := [[0]]
    orbitalType := OrbitalType.noneType, clean := false }

def atomicCleanedMethod (heap : List TermTable) (a : ℕ) : List TermTable × ℕ :=
  (heap ++ [atomicCleanedTT (heap.getD a dummyTT)], heap.length)

def diatomicCleanedMethod (heap : List TermTable) (a : ℕ) : List TermTable × ℕ :=
  (heap ++ [diatomicCleanedTT (heap.getD a dummyTT)], heap.length)

def keepAt (v : ℤ × ℤ) (r c : ℕ) : Bool :=
  decide (¬ (v.1 < 0 ∨ v.2 < 0) ∧ v.2.natAbs / 2 = r ∧ v.1.natAbs = c)

theorem C1_atomic_cleaning_p2 :
    atomicCleanedTT p2RawTable =
      { maxMult := 3
        maxAm := 2
        table := [[1, 0, 1], [0, 1, 0]]
        orbitalType := OrbitalType.atomic
        clean := true } := by
  decide

theorem C3_counterexample_p2 :
    eqTT (atomicCleanedTT (atomicCleanedTT p2RawTable)) (atomicCleanedTT p2RawTable)
      = false ∧
    (atomicCleanedTT (atomicCleanedTT p2RawTable)).table = [[2, -2, 1], [-1, 1, 0]] := by
  constructor
  · decide
  · decide

theorem C3_amended_clean_preserves_dims (t : TermTable) :
    ((atomicCleanedTT (atomicCleanedTT t)).maxMult = (atomicCleanedTT t).maxMult ∧
      (atomicCleanedTT (atomicCleanedTT t)).maxAm = (atomicCleanedTT t).maxAm ∧
      (atomicCleanedTT (atomicCleanedTT t)).clean = (atomicCleanedTT t).clean) ∧
    ((diatomicCleanedTT (diatomicCleanedTT t)).maxMult = (diatomicCleanedTT t).maxMult ∧
      (diatomicCleanedTT (diatomicCleanedTT t)).maxAm = (diatomicCleanedTT t).maxAm ∧
      (diatomicCleanedTT (diatomicCleanedTT t)).clean = (diatomicCleanedTT t).clean) := by
  exact ⟨⟨rfl, rfl, rfl⟩, ⟨rfl, rfl, rfl⟩⟩

theorem C9_eq_ignores_type_and_clean (a b : TermTable) :
    eqTT a b = true ↔ (a.maxAm = b.maxAm ∧ a.maxMult = b.maxMult ∧ a.table = b.table) := by
  unfold eqTT
  by_cases h1 : a.maxAm = b.maxAm
  · by_cases h2 : a.maxMult = b.maxMult
    · by_cases h3 : a.table = b.table
      · simp [h1, h2, h3]
      · simp [h1, h2, h3]
    · simp [h1, h2]
  · simp [h1]

theorem C10_diatomic_ctor_ignores_clean (m a : ℕ) (c : Bool) :
    (mkDiatomicTermTable m a c).clean = false ∧ (mkAtomicTermTable m a c).clean = c := by
  exact ⟨rfl, rfl⟩

theorem C6_atomic_accepts_ml_below_minus_l :
    isOkE (mkAtomicSpinOrbital 2 (AmArg.num 1) (-2) (SpinArg.label "alpha")) = true ∧
    ((-2 : ℤ)).natAbs > ((1 : ℤ)).natAbs ∧
    isOkE (mkDiatomicSpinOrbital 2 (AmArg.num 1) (-2) (SpinArg.label "alpha")) = false := by
  exact ⟨rfl, by decide, rfl⟩

theorem C7_counterexample_fourth_table :
    allAtomicTermTables 2 ≠
      [subshellTerms 1 0 1, subshellTerms 2 1 1, subshellTerms 2 1 2] ∧
    (allAtomicTermTables 2).length = 4 := by
  exact ⟨by decide, by decide⟩

theorem C7_amended_enumeration_order :
    allAtomicTermTables 2 =
      [subshellTerms 1 0 1, subshellTerms 2 1 1, subshellTerms 2 1 2,
        subshellTerms 2 1 3] := by
  decide

theorem C2_mul_misreads_second_multiplicity :
    (mulTT singletTable tripletTable).table = [[1], [0], [0]] ∧
    (mulTT singletTable tripletTable).maxMult = 5 ∧
    (mulTT singletTable tripletTable).maxAm = 0 ∧
    (mulTT singletTable tripletTable).table ≠ [[0], [1], [0]] := by
  exact ⟨by decide, by decide, by decide, by decide⟩

theorem getD_append_lt (heap : List TermTable) (t : TermTable) (b : ℕ)
    (hb : b < heap.length) :
    (heap ++ [t]).getD b dummyTT = heap.getD b dummyTT := by
  simp only [List.getD_eq_getElem?_getD]
  rw [List.getElem?_append_left hb]

theorem C8_cleaned_never_mutates_receiver (heap : List TermTable) (a : ℕ)
    (ha : a < heap.length) :
    ((∀ b, b < heap.length →
        (atomicCleanedMethod heap a).1.getD b dummyTT = heap.getD b dummyTT) ∧
      (atomicCleanedMethod heap a).2 = heap.length ∧
      (atomicCleanedMethod heap a).2 ≠ a) ∧
    ((∀ b, b < heap.length →
        (diatomicCleanedMethod heap a).1.getD b dummyTT = heap.getD b dummyTT) ∧
      (diatomicCleanedMethod heap a).2 = heap.length ∧
      (diatomicCleanedMethod heap a).2 ≠ a) := by
  refine ⟨⟨fun b hb => ?_, rfl, ?_⟩, ⟨fun b hb => ?_, rfl, ?_⟩⟩
  · exact getD_append_lt heap _ b hb
  · exact fun h => absurd (h ▸ ha) (lt_irrefl _)
  · exact getD_append_lt heap _ b hb
  · exact fun h => absurd (h ▸ ha) (lt_irrefl _)

theorem C8_cleaned_never_mutates_receiver_witness :
    (0 < [p2RawTable, dummyTT].length) ∧
    (((∀ b, b < [p2RawTable, dummyTT].length →
        (atomicCleanedMethod [p2RawTable, dummyTT] 0).1.getD b dummyTT =
          [p2RawTable, dummyTT].getD b dummyTT) ∧
      (atomicCleanedMethod [p2RawTable, dummyTT] 0).2 = [p2RawTable, dummyTT].length ∧
      (atomicCleanedMethod [p2RawTable, dummyTT] 0).2 ≠ 0) ∧
    ((∀ b, b < [p2RawTable, dummyTT].length →
        (diatomicCleanedMethod [p2RawTable, dummyTT] 0).1.getD b dummyTT =
          [p2RawTable, dummyTT].getD b dummyTT) ∧
      (diatomicCleanedMethod [p2RawTable, dummyTT] 0).2 = [p2RawTable, dummyTT].length ∧
      (diatomicCleanedMethod [p2RawTable, dummyTT] 0).2 ≠ 0)) :=
  ⟨by decide, C8_cleaned_never_mutates_receiver [p2RawTable, dummyTT] 0 (by decide)⟩

theorem combinations_eq_nil {α : Type} (xs : List α) :
    ∀ (k : ℕ), xs.length < k → combinations k xs = [] := by
  induction xs with
  | nil =>
    intro k hk
    cases k with
    | zero => omega
    | succ n => rfl
  | cons x xs ih =>
    intro k hk
    cases k with
    | zero => omega
    | succ n =>
      simp only [combinations]
      rw [ih n (by simp at hk; omega), ih (n + 1) (by simp at hk; omega)]
      rfl

theorem combinations_self {α : Type} (xs : List α) :
    combinations xs.length xs = [xs] := by
  induction xs with
  | nil => rfl
  | cons x xs ih =>
    simp only [List.length_cons, combinations, ih,
      combinations_eq_nil xs (xs.length + 1) (Nat.lt_succ_self _), List.map_cons]
    rfl

theorem countP_combinations_compl {M : Type} [AddCommGroup M] :
    ∀ (xs : List M) (k : ℕ), k ≤ xs.length → ∀ (p : M → Bool),
      (combinations k xs).countP (fun co => p co.sum) =
        (combinations (xs.length - k) xs).countP (fun co => p (xs.sum - co.sum)) := by
  intro xs
  induction xs with
  | nil =>
    intro k hk p
    have hk0 : k = 0 := by simpa using hk
    subst hk0
    simp [combinations, List.countP_cons, neg_zero]
  | cons x xs ih =>
    intro k hk p
    cases k with
    | zero =>
      have hlen : (x :: xs).length - 0 = (x :: xs).length := rfl
      rw [hlen, combinations_self]
      simp [combinations, List.countP_cons, List.sum_cons, sub_self]
    | succ k =>
      rcases Nat.lt_or_ge k xs.length with hlt | hge
      · have hsub : (x :: xs).length - (k + 1) = (xs.length - (k + 1)) + 1 := by
          simp only [List.length_cons]; omega
        have hd1 : xs.length - (k + 1) + 1 = xs.length - k := by omega
        rw [hsub]
        simp only [combinations, List.countP_append, List.countP_map, Function.comp_def]
        rw [hd1]
        have e1 := ih (k + 1) hlt p
        have e2 := ih k (Nat.le_of_lt hlt) (fun t => p (x + t))
        simp only [] at e1 e2
        have lhs1 : (combinations k xs).countP (fun c => p (x :: c).sum) =
            (combinations k xs).countP (fun co => p (x + co.sum)) := by
          apply List.countP_congr; intro a _; simp [List.sum_cons]
        have rhs1 : (combinations (xs.length - (k + 1)) xs).countP
              (fun c => p ((x :: xs).sum - (x :: c).sum)) =
            (combinations (xs.length - (k + 1)) xs).countP
              (fun co => p (xs.sum - co.sum)) := by
          apply List.countP_congr; intro a _
          simp only [List.sum_cons]
          have h : x + xs.sum - (x + a.sum) = xs.sum - a.sum := by abel
          rw [h]
        have rhs2 : (combinations (xs.length - k) xs).countP
              (fun co => p ((x :: xs).sum - co.sum)) =
            (combinations (xs.length - k) xs).countP
              (fun co => p (x + (xs.sum - co.sum))) := by
          apply List.countP_congr; intro a _
          simp only [List.sum_cons]
          have h : x + xs.sum - a.sum = x + (xs.sum - a.sum) := by abel
          rw [h]
        rw [lhs1, rhs1, rhs2, e1, e2]
        omega
      · have hk1 : k = xs.length := by simp at hk; omega
        subst hk1
        have hsub : (x :: xs).length - (xs.length + 1) = 0 := by
          simp only [List.length_cons]; omega
        rw [hsub]
        have hfull : combinations (xs.length + 1) (x :: xs) = [x :: xs] := by
          have := combinations_self (x :: xs)
          simpa using this
        rw [hfull]
        simp only [combinations, List.countP_cons, List.countP_nil, List.sum_cons,
          List.sum_nil, sub_zero]

theorem countP_combinations_powersetCard {α : Type} :
    ∀ (xs : List α) (k : ℕ) (q : Multiset α → Bool),
      (combinations k xs).countP (fun co => q (Multiset.ofList co)) =
        Multiset.countP (fun M => q M = true) (Multiset.powersetCard k (Multiset.ofList xs)) := by
  intro xs
  induction xs with
  | nil =>
    intro k q
    cases k with
    | zero =>
      simp only [combinations, Multiset.powersetCard_zero_left, List.countP_cons,
        List.countP_nil]
      rw [show ({0} : Multiset (Multiset α)) = (0 : Multiset α) ::ₘ 0 from rfl,
        Multiset.countP_cons]
      simp
    | succ k =>
      simp [combinations, Multiset.powersetCard_zero_right]
  | cons x xs ih =>
    intro k q
    cases k with
    | zero =>
      have h0 : Multiset.powersetCard 0 (Multiset.ofList (x :: xs)) = {0} :=
        Multiset.powersetCard_zero_left _
      rw [h0]
      simp only [combinations, List.countP_cons, List.countP_nil]
      rw [show ({0} : Multiset (Multiset α)) = (0 : Multiset α) ::ₘ 0 from rfl,
        Multiset.countP_cons]
      simp
    | succ k =>
      have hcoe : (Multiset.ofList (x :: xs)) = x ::ₘ (Multiset.ofList xs) := rfl
      rw [hcoe, Multiset.powersetCard_cons]
      simp only [combinations, List.countP_append, List.countP_map, Function.comp_def,
        Multiset.countP_add]
      have hmap : Multiset.countP (fun M => q M = true)
            (Multiset.map (Multiset.cons x) (Multiset.powersetCard k (Multiset.ofList xs))) =
          Multiset.countP (fun M => q (x ::ₘ M) = true)
            (Multiset.powersetCard k (Multiset.ofList xs)) := by
        rw [Multiset.countP_map, Multiset.countP_eq_card_filter]
      have hleft : (combinations k xs).countP (fun c => q (Multiset.ofList (x :: c))) =
          (combinations k xs).countP (fun c => q (x ::ₘ Multiset.ofList c)) := by
        apply List.countP_congr
        intro a _
        rfl
      rw [hleft, ih k (fun M => q (x ::ₘ M)), ih (k + 1) q, hmap]
      omega

theorem rangeDown_snoc : ∀ (n : ℕ) (a : ℤ), rangeDown (n + 1) a = rangeDown n a ++ [a - n] := by
  intro n
  induction n with
  | zero => intro a; simp [rangeDown]
  | succ n ih =>
    intro a
    have step : rangeDown (n + 2) a = a :: rangeDown (n + 1) (a - 1) := rfl
    rw [step, ih (a - 1)]
    have step2 : rangeDown (n + 1) a = a :: rangeDown n (a - 1) := rfl
    rw [step2]
    simp only [List.cons_append]
    congr 2
    push_cast
    ring

theorem map_neg_rangeDown : ∀ (n : ℕ) (a : ℤ),
    (rangeDown n a).map (fun x => -x) = (rangeDown n ((n : ℤ) - 1 - a)).reverse := by
  intro n
  induction n with
  | zero => intro a; rfl
  | succ n ih =>
    intro a
    have step : rangeDown (n + 1) a = a :: rangeDown n (a - 1) := rfl
    rw [step, List.map_cons, ih (a - 1)]
    rw [rangeDown_snoc n ((n + 1 : ℕ) - 1 - a)]
    rw [List.reverse_append]
    have h1 : ((n + 1 : ℕ) : ℤ) - 1 - a - (n : ℤ) = -a := by push_cast; ring
    have h2 : ((n : ℕ) : ℤ) - 1 - (a - 1) = ((n + 1 : ℕ) : ℤ) - 1 - a := by push_cast; ring
    rw [h1, h2]
    rfl

theorem map_neg_mlList (l : ℕ) :
    (rangeDown (2 * l + 1) (l : ℤ)).map (fun x => -x) =
      (rangeDown (2 * l + 1) (l : ℤ)).reverse := by
  rw [map_neg_rangeDown]
  congr 2
  push_cast
  ring

theorem flatMap_pair_swap : ∀ (xs : List ℤ),
    (xs.flatMap (fun m => [(m, (-1 : ℤ)), (m, 1)])).Perm
      (xs.flatMap (fun m => [(m, (1 : ℤ)), (m, -1)])) := by
  intro xs
  induction xs with
  | nil => exact List.Perm.refl _
  | cons x xs ih =>
    simp only [List.flatMap_cons]
    exact List.Perm.append (List.Perm.swap _ _ _) ih

theorem atomicSpinOrbitals_map_neg_perm (l : ℕ) :
    ((atomicSpinOrbitals l).map (fun v => -v)).Perm (atomicSpinOrbitals l) := by
  unfold atomicSpinOrbitals
  rw [List.map_flatMap]
  have hblock : (fun (m : ℤ) => ([(m, (1 : ℤ)), (m, -1)].map (fun v => -v))) =
      (fun m => [(-m, (-1 : ℤ)), (-m, 1)]) := by
    funext m
    simp [Prod.neg_mk]
  rw [hblock]
  have hfm : (rangeDown (2 * l + 1) (l : ℤ)).flatMap (fun m => [(-m, (-1 : ℤ)), (-m, 1)]) =
      ((rangeDown (2 * l + 1) (l : ℤ)).map (fun x => -x)).flatMap
        (fun m => [(m, (-1 : ℤ)), (m, 1)]) := by
    rw [List.flatMap_map]
  rw [hfm, map_neg_mlList]
  exact List.Perm.trans
    (List.Perm.flatMap_right _ (List.reverse_perm _))
    (flatMap_pair_swap _)

theorem msum_map_neg (s : Multiset (ℤ × ℤ)) :
    (s.map (fun v => -v)).sum = -s.sum := by
  induction s using Multiset.induction with
  | empty => simp
  | cons a s ih =>
    simp only [Multiset.map_cons, Multiset.sum_cons, ih]
    abel

theorem countP_neg_invariant (l k : ℕ) (p : ℤ × ℤ → Bool) :
    (combinations k (atomicSpinOrbitals l)).countP (fun co => p (-co.sum)) =
      (combinations k (atomicSpinOrbitals l)).countP (fun co => p co.sum) := by
  have hperm : ((atomicSpinOrbitals l).map (fun v => -v)).Perm (atomicSpinOrbitals l) :=
    atomicSpinOrbitals_map_neg_perm l
  have hA : Multiset.map (fun v : ℤ × ℤ => -v) (Multiset.ofList (atomicSpinOrbitals l)) =
      Multiset.ofList (atomicSpinOrbitals l) := by
    rw [Multiset.map_coe]
    exact Multiset.coe_eq_coe.mpr hperm
  have h1 := countP_combinations_powersetCard (atomicSpinOrbitals l) k
    (fun M => p (-M.sum))
  have h2 := countP_combinations_powersetCard (atomicSpinOrbitals l) k
    (fun M => p M.sum)
  have hsum : ∀ co : List (ℤ × ℤ), (Multiset.ofList co).sum = co.sum := fun _ => rfl
  have h1' : (combinations k (atomicSpinOrbitals l)).countP (fun co => p (-co.sum)) =
      Multiset.countP (fun M => p (-M.sum) = true)
        (Multiset.powersetCard k (Multiset.ofList (atomicSpinOrbitals l))) := h1
  have h2' : (combinations k (atomicSpinOrbitals l)).countP (fun co => p co.sum) =
      Multiset.countP (fun M => p M.sum = true)
        (Multiset.powersetCard k (Multiset.ofList (atomicSpinOrbitals l))) := h2
  rw [h1', h2']
  conv_lhs =>
    rw [← hA, Multiset.powersetCard_map]
  rw [Multiset.countP_map, Multiset.countP_eq_card_filter]
  apply congrArg
  apply Multiset.filter_congr
  intro M _
  rw [msum_map_neg, neg_neg]

theorem calcVals_eq_sum (co : List (ℤ × ℤ)) : calcVals co = co.sum := by
  induction co with
  | nil => rfl
  | cons a co ih =>
    simp only [calcVals, List.map_cons, List.sum_cons] at *
    rw [Prod.ext_iff] at ih ⊢
    constructor
    · simpa using ih.1 ▸ rfl
    · simpa using ih.2 ▸ rfl

theorem length_atomicSpinOrbitals (l : ℕ) :
    (atomicSpinOrbitals l).length = 4 * l + 2 := by
  have hlen : ∀ (n : ℕ) (a : ℤ), (rangeDown n a).length = n := by
    intro n
    induction n with
    | zero => intro a; rfl
    | succ n ih => intro a; simp [rangeDown, ih]
  have hgen : ∀ (xs : List ℤ),
      (xs.flatMap (fun m => [(m, (1 : ℤ)), (m, -1)])).length = 2 * xs.length := by
    intro xs
    induction xs with
    | nil => rfl
    | cons x xs ih => simp [List.flatMap_cons, ih]; omega
  unfold atomicSpinOrbitals
  rw [hgen, hlen]
  omega

theorem sum_atomicSpinOrbitals (l : ℕ) : (atomicSpinOrbitals l).sum = (0, 0) := by
  have hblocks : ∀ (xs : List ℤ),
      (xs.flatMap (fun m => [(m, (1 : ℤ)), (m, -1)])).sum = (2 * xs.sum, 0) := by
    intro xs
    induction xs with
    | nil => simp
    | cons x xs ih =>
      simp only [List.flatMap_cons, List.sum_append, ih, List.sum_cons, List.sum_nil]
      rw [Prod.ext_iff]
      constructor
      · simp; ring
      · simp
  have hds : ∀ (n : ℕ) (a : ℤ), 2 * (rangeDown n a).sum = n * (2 * a - n + 1) := by
    intro n
    induction n with
    | zero => intro a; simp [rangeDown]
    | succ n ih =>
      intro a
      have step : rangeDown (n + 1) a = a :: rangeDown n (a - 1) := rfl
      rw [step, List.sum_cons]
      have expand : 2 * (a + (rangeDown n (a - 1)).sum) =
          2 * a + 2 * (rangeDown n (a - 1)).sum := by ring
      rw [expand, ih (a - 1)]
      push_cast
      ring
  unfold atomicSpinOrbitals
  rw [hblocks]
  have h0 : (rangeDown (2 * l + 1) (l : ℤ)).sum = 0 := by
    have := hds (2 * l + 1) (l : ℤ)
    have hz : ((2 * l + 1 : ℕ) : ℤ) * (2 * (l : ℤ) - ((2 * l + 1 : ℕ) : ℤ) + 1) = 0 := by
      push_cast
      ring
    omega
  rw [h0]
  simp

theorem countP_subshell_compl (l e r c : ℕ) (he : e ≤ 4 * l + 2) :
    (combinations e (atomicSpinOrbitals l)).countP (fun co => keepAt (calcVals co) r c) =
      (combinations (4 * l + 2 - e) (atomicSpinOrbitals l)).countP
        (fun co => keepAt (calcVals co) r c) := by
  have hlen := length_atomicSpinOrbitals l
  have he' : e ≤ (atomicSpinOrbitals l).length := by omega
  have step1 : (combinations e (atomicSpinOrbitals l)).countP
        (fun co => keepAt (calcVals co) r c) =
      (combinations e (atomicSpinOrbitals l)).countP (fun co => keepAt co.sum r c) := by
    apply List.countP_congr
    intro a _
    rw [calcVals_eq_sum]
  have step2 := countP_combinations_compl (atomicSpinOrbitals l) e he'
    (fun v => keepAt v r c)
  have step3 : (combinations ((atomicSpinOrbitals l).length - e) (atomicSpinOrbitals l)).countP
        (fun co => keepAt ((atomicSpinOrbitals l).sum - co.sum) r c) =
      (combinations ((atomicSpinOrbitals l).length - e) (atomicSpinOrbitals l)).countP
        (fun co => keepAt (-co.sum) r c) := by
    apply List.countP_congr
    intro a _
    rw [sum_atomicSpinOrbitals]
    rw [show ((0, 0) : ℤ × ℤ) = 0 from rfl, zero_sub]
  have step4 := countP_neg_invariant l ((atomicSpinOrbitals l).length - e)
    (fun v => keepAt v r c)
  have step5 : (combinations ((atomicSpinOrbitals l).length - e) (atomicSpinOrbitals l)).countP
        (fun co => keepAt co.sum r c) =
      (combinations ((atomicSpinOrbitals l).length - e) (atomicSpinOrbitals l)).countP
        (fun co => keepAt (calcVals co) r c) := by
    apply List.countP_congr
    intro a _
    rw [calcVals_eq_sum]
  have hlen2 : (atomicSpinOrbitals l).length - e = 4 * l + 2 - e := by omega
  rw [step1, step2, step3, step4, step5, hlen2]

theorem two_mul_sum_range_map (n : ℕ) (s : ℤ) :
    2 * ((List.range n).map (fun (j : ℕ) => s + (j : ℤ))).sum = n * (2 * s + n - 1) := by
  induction n with
  | zero => simp
  | succ n ih =>
    rw [List.range_succ, List.map_append, List.sum_append]
    have expand : 2 * (((List.range n).map (fun (j : ℕ) => s + (j : ℤ))).sum +
        ([n].map (fun (j : ℕ) => s + (j : ℤ))).sum) =
        2 * ((List.range n).map (fun (j : ℕ) => s + (j : ℤ))).sum + 2 * (s + (n : ℤ)) := by
      simp
      ring
    rw [expand, ih]
    push_cast
    ring

theorem two_mul_pySumRange (s t : ℤ) (h : 0 ≤ t - s) :
    2 * pySumRange s t = (t - s) * (2 * s + (t - s) - 1) := by
  unfold pySumRange
  rw [two_mul_sum_range_map]
  rw [Int.toNat_of_nonneg h]

theorem pySumRange_reflect (l b : ℕ) (hb : b ≤ 2 * l + 1) :
    pySumRange ((l : ℤ) - ((2 * l + 1 - b : ℕ) : ℤ) + 1) ((l : ℤ) + 1) =
      pySumRange ((l : ℤ) - (b : ℤ) + 1) ((l : ℤ) + 1) := by
  have hcast : ((2 * l + 1 - b : ℕ) : ℤ) = 2 * (l : ℤ) + 1 - (b : ℤ) := by omega
  rw [hcast]
  have h1 : (0 : ℤ) ≤ ((l : ℤ) + 1) - ((l : ℤ) - (2 * (l : ℤ) + 1 - (b : ℤ)) + 1) := by omega
  have h2 : (0 : ℤ) ≤ ((l : ℤ) + 1) - ((l : ℤ) - (b : ℤ) + 1) := by omega
  have e1 := two_mul_pySumRange ((l : ℤ) - (2 * (l : ℤ) + 1 - (b : ℤ)) + 1) ((l : ℤ) + 1) h1
  have e2 := two_mul_pySumRange ((l : ℤ) - (b : ℤ) + 1) ((l : ℤ) + 1) h2
  have h3 : 2 * pySumRange ((l : ℤ) - (2 * (l : ℤ) + 1 - (b : ℤ)) + 1) ((l : ℤ) + 1) =
      2 * pySumRange ((l : ℤ) - (b : ℤ) + 1) ((l : ℤ) + 1) := by
    rw [e1, e2]
    ring
  omega

theorem subshellMaxAm_compl (l e : ℕ) (he : e ≤ 4 * l + 2) :
    subshellMaxAm l (4 * l + 2 - e) = subshellMaxAm l e := by
  unfold subshellMaxAm
  have ha' : (4 * l + 2 - e + 1) / 2 = 2 * l + 1 - e / 2 := by omega
  have hb' : (4 * l + 2 - e) / 2 = 2 * l + 1 - (e + 1) / 2 := by omega
  rw [ha', hb']
  have h1 := pySumRange_reflect l (e / 2) (by omega)
  have h2 := pySumRange_reflect l ((e + 1) / 2) (by omega)
  rw [h1, h2]
  omega

theorem subshellMaxMult_compl (l e : ℕ) (he : e ≤ 4 * l + 2) :
    subshellMaxMult l (4 * l + 2 - e) = subshellMaxMult l e := by
  unfold subshellMaxMult
  split_ifs <;> omega

theorem getD_bump (m : List (List ℤ)) (r c r' : ℕ) :
    (bump m r c).getD r' [] =
      if r' = r ∧ r < m.length then (m.getD r []).set c (entry m r c + 1)
      else m.getD r' [] := by
  by_cases h1 : r' = r
  · subst h1
    by_cases h2 : r' < m.length
    · simp [bump, setEntry, List.getD_eq_getElem?_getD, List.getElem?_set_self h2, h2]
    · rw [show bump m r' c = m.set r' ((m.getD r' []).set c (entry m r' c + 1)) from rfl]
      rw [List.set_eq_of_length_le (by omega)]
      simp [h2]
  · rw [show bump m r c = m.set r ((m.getD r []).set c (entry m r c + 1)) from rfl]
    rw [if_neg (fun hh => h1 hh.1)]
    simp [List.getD_eq_getElem?_getD, List.getElem?_set_ne (fun hh => h1 hh.symm)]

theorem length_bump (m : List (List ℤ)) (r c : ℕ) : (bump m r c).length = m.length := by
  simp [bump, setEntry]

theorem getD_length_bump (m : List (List ℤ)) (r c r' : ℕ) :
    ((bump m r c).getD r' []).length = (m.getD r' []).length := by
  rw [getD_bump]
  by_cases h : r' = r ∧ r < m.length
  · rw [if_pos h, h.1]
    simp
  · rw [if_neg h]

theorem entry_bump_self (m : List (List ℤ)) (r c : ℕ) (hr : r < m.length)
    (hc : c < (m.getD r []).length) :
    entry (bump m r c) r c = entry m r c + 1 := by
  have h := getD_bump m r c r
  rw [if_pos ⟨rfl, hr⟩] at h
  unfold entry
  rw [h, List.getD_eq_getElem?_getD, List.getElem?_set_self hc]
  simp [entry]

theorem entry_bump_ne (m : List (List ℤ)) (r c r' c' : ℕ) (h : ¬(r' = r ∧ c' = c)) :
    entry (bump m r c) r' c' = entry m r' c' := by
  rw [entry, getD_bump]
  by_cases h1 : r' = r ∧ r < m.length
  · obtain ⟨he, hlt⟩ := h1
    subst he
    rw [if_pos ⟨rfl, hlt⟩]
    have hc' : c' ≠ c := fun hcc => h ⟨rfl, hcc⟩
    rw [entry]
    simp only [List.getD_eq_getElem?_getD, List.getElem?_set_ne (fun hh => hc' hh.symm)]
    simp [entry, List.getD_eq_getElem?_getD]
  · rw [if_neg h1]
    rfl

theorem length_tallyCombos (combos : List (List (ℤ × ℤ))) :
    ∀ (m : List (List ℤ)), (tallyCombos combos m).length = m.length := by
  induction combos with
  | nil => intro m; rfl
  | cons co rest ih =>
    intro m
    have hstep : tallyCombos (co :: rest) m = tallyCombos rest
        (if (calcVals co).1 < 0 ∨ (calcVals co).2 < 0 then m
         else bump m ((calcVals co).2.natAbs / 2) (calcVals co).1.natAbs) := rfl
    rw [hstep, ih]
    by_cases hd : (calcVals co).1 < 0 ∨ (calcVals co).2 < 0
    · rw [if_pos hd]
    · rw [if_neg hd, length_bump]

theorem getD_length_tallyCombos (combos : List (List (ℤ × ℤ))) :
    ∀ (m : List (List ℤ)) (r' : ℕ),
      ((tallyCombos combos m).getD r' []).length = (m.getD r' []).length := by
  induction combos with
  | nil => intro m r'; rfl
  | cons co rest ih =>
    intro m r'
    have hstep : tallyCombos (co :: rest) m = tallyCombos rest
        (if (calcVals co).1 < 0 ∨ (calcVals co).2 < 0 then m
         else bump m ((calcVals co).2.natAbs / 2) (calcVals co).1.natAbs) := rfl
    rw [hstep, ih]
    by_cases hd : (calcVals co).1 < 0 ∨ (calcVals co).2 < 0
    · rw [if_pos hd]
    · rw [if_neg hd, getD_length_bump]

theorem entry_tallyCombos (combos : List (List (ℤ × ℤ))) :
    ∀ (m : List (List ℤ)) (r c : ℕ), r < m.length → c < (m.getD r []).length →
      entry (tallyCombos combos m) r c =
        entry m r c + ((combos.countP (fun co => keepAt (calcVals co) r c) : ℕ) : ℤ) := by
  induction combos with
  | nil => intro m r c _ _; simp [tallyCombos]
  | cons co rest ih =>
    intro m r c hr hc
    have hstep : tallyCombos (co :: rest) m = tallyCombos rest
        (if (calcVals co).1 < 0 ∨ (calcVals co).2 < 0 then m
         else bump m ((calcVals co).2.natAbs / 2) (calcVals co).1.natAbs) := rfl
    rw [hstep, List.countP_cons]
    by_cases hdisc : (calcVals co).1 < 0 ∨ (calcVals co).2 < 0
    · rw [if_pos hdisc, ih m r c hr hc]
      have hkeep : keepAt (calcVals co) r c = false := by
        unfold keepAt
        apply decide_eq_false
        intro hh
        exact hh.1 hdisc
      rw [hkeep]
      push_cast
      ring
    · rw [if_neg hdisc]
      by_cases htgt : (calcVals co).2.natAbs / 2 = r ∧ (calcVals co).1.natAbs = c
      · obtain ⟨h1, h2⟩ := htgt
        rw [h1, h2]
        rw [ih (bump m r c) r c (by rw [length_bump]; exact hr)
          (by rw [getD_length_bump]; exact hc)]
        rw [entry_bump_self m r c hr hc]
        have hkeep : keepAt (calcVals co) r c = true := by
          unfold keepAt
          exact decide_eq_true ⟨hdisc, h1, h2⟩
        rw [hkeep]
        simp only [if_true]
        push_cast
        ring
      · rw [ih (bump m ((calcVals co).2.natAbs / 2) (calcVals co).1.natAbs) r c
          (by rw [length_bump]; exact hr) (by rw [getD_length_bump]; exact hc)]
        rw [entry_bump_ne m _ _ r c (fun hh => htgt ⟨hh.1.symm, hh.2.symm⟩)]
        have hkeep : keepAt (calcVals co) r c = false := by
          unfold keepAt
          apply decide_eq_false
          intro hh
          exact htgt hh.2
        rw [hkeep]
        push_cast
        ring

theorem entry_zeroMatrix (h w r c : ℕ) :
    entry (List.replicate h (List.replicate w (0 : ℤ))) r c = 0 := by
  unfold entry
  have hrow : (List.replicate h (List.replicate w (0 : ℤ))).getD r [] =
      if r < h then List.replicate w (0 : ℤ) else [] := by
    rw [List.getD_eq_getElem?_getD, List.getElem?_replicate]
    by_cases hr : r < h
    · rw [if_pos hr, if_pos hr]; rfl
    · rw [if_neg hr, if_neg hr]; rfl
  rw [hrow]
  by_cases hr : r < h
  · rw [if_pos hr, List.getD_eq_getElem?_getD, List.getElem?_replicate]
    by_cases hc : c < w
    · rw [if_pos hc]; rfl
    · rw [if_neg hc]; rfl
  · rw [if_neg hr]; rfl

theorem matrix_ext (m1 m2 : List (List ℤ)) (hl : m1.length = m2.length)
    (hrow : ∀ r, r < m1.length → (m1.getD r []).length = (m2.getD r []).length)
    (hent : ∀ r c, r < m1.length → c < (m1.getD r []).length →
      entry m1 r c = entry m2 r c) :
    m1 = m2 := by
  apply List.ext_getElem hl
  intro r h1 h2
  have hg1 : m1.getD r [] = m1[r] := by
    rw [List.getD_eq_getElem?_getD, List.getElem?_eq_getElem h1]
    rfl
  have hg2 : m2.getD r [] = m2[r] := by
    rw [List.getD_eq_getElem?_getD, List.getElem?_eq_getElem h2]
    rfl
  apply List.ext_getElem
  · rw [← hg1, ← hg2]
    exact hrow r h1
  · intro c hc1 hc2
    have he := hent r c h1 (by rw [hg1]; exact hc1)
    unfold entry at he
    rw [hg1, hg2] at he
    rw [List.getD_eq_getElem?_getD, List.getD_eq_getElem?_getD,
      List.getElem?_eq_getElem hc1, List.getElem?_eq_getElem hc2] at he
    exact he

theorem entry_subshellMatrix (l e r c : ℕ)
    (hr : r < (subshellMaxMult l e + 1) / 2)
    (hc : c < (subshellMaxAm l e).toNat + 1) :
    entry (subshellMatrix l e) r c =
      (((combinations e (atomicSpinOrbitals l)).countP
        (fun co => keepAt (calcVals co) r c) : ℕ) : ℤ) := by
  unfold subshellMatrix
  rw [entry_tallyCombos _ _ r c (by simpa using hr)
    (by rw [List.getD_eq_getElem?_getD, List.getElem?_replicate, if_pos hr]; simpa using hc)]
  rw [entry_zeroMatrix]
  ring

theorem subshellMatrix_compl (l e : ℕ) (he : e ≤ 4 * l + 2) :
    subshellMatrix l (4 * l + 2 - e) = subshellMatrix l e := by
  have hmm := subshellMaxMult_compl l e he
  have hma := subshellMaxAm_compl l e he
  have hlen1 : (subshellMatrix l (4 * l + 2 - e)).length = (subshellMaxMult l e + 1) / 2 := by
    unfold subshellMatrix
    rw [length_tallyCombos, List.length_replicate, hmm]
  have hlen2 : (subshellMatrix l e).length = (subshellMaxMult l e + 1) / 2 := by
    unfold subshellMatrix
    rw [length_tallyCombos, List.length_replicate]
  have hroww : ∀ (e' : ℕ) (r : ℕ), r < (subshellMaxMult l e' + 1) / 2 →
      ((subshellMatrix l e').getD r []).length = (subshellMaxAm l e').toNat + 1 := by
    intro e' r hr
    unfold subshellMatrix
    rw [getD_length_tallyCombos, List.getD_eq_getElem?_getD, List.getElem?_replicate,
      if_pos hr]
    simp
  apply matrix_ext
  · rw [hlen1, hlen2]
  · intro r hrr
    rw [hlen1] at hrr
    rw [hroww (4 * l + 2 - e) r (by rw [hmm]; exact hrr), hroww e r hrr, hma]
  · intro r c hrr hcc
    rw [hlen1] at hrr
    rw [hroww (4 * l + 2 - e) r (by rw [hmm]; exact hrr), hma] at hcc
    rw [entry_subshellMatrix l (4 * l + 2 - e) r c (by rw [hmm]; exact hrr)
      (by rw [hma]; exact hcc)]
    rw [entry_subshellMatrix l e r c hrr hcc]
    rw [countP_subshell_compl l e r c he]

theorem subshellTerms_compl (shell l e : ℕ) (he : e ≤ 4 * l + 2) :
    subshellTerms shell l (4 * l + 2 - e) = subshellTerms shell l e := by
  unfold subshellTerms
  rw [subshellMatrix_compl l e he, subshellMaxMult_compl l e he, subshellMaxAm_compl l e he]

theorem eqTT_self (t : TermTable) : eqTT t t = true := by
  simp [eqTT]

theorem C4_particle_hole_symmetry (shell l e : ℕ) (hs : l + 1 ≤ shell)
    (h1 : 1 ≤ e) (h2 : e ≤ 4 * l + 2) :
    eqTT (atomicCleanedTT (subshellTerms shell l e))
      (atomicCleanedTT (subshellTerms shell l (4 * l + 2 - e))) = true := by
  rw [subshellTerms_compl shell l e h2]
  exact eqTT_self _

theorem C4_particle_hole_symmetry_witness :
    (1 + 1 ≤ 2 ∧ 1 ≤ 1 ∧ 1 ≤ 4 * 1 + 2) ∧
    eqTT (atomicCleanedTT (subshellTerms 2 1 1))
      (atomicCleanedTT (subshellTerms 2 1 (4 * 1 + 2 - 1))) = true :=
  ⟨⟨by decide, by decide, by decide⟩,
    C4_particle_hole_symmetry 2 1 1 (by decide) (by decide) (by decide)⟩

theorem C5_raw_tally_rule_and_p2 :
    (∀ (l e r c : ℕ), r < (subshellMaxMult l e + 1) / 2 →
      c < (subshellMaxAm l e).toNat + 1 →
      entry (subshellMatrix l e) r c =
        (((combinations e (atomicSpinOrbitals l)).countP
          (fun co => keepAt (calcVals co) r c) : ℕ) : ℤ)) ∧
    subshellTerms 2 1 2 = p2RawTable :=
  ⟨fun l e r c hr hc => entry_subshellMatrix l e r c hr hc, by decide⟩

theorem C5_raw_tally_rule_and_p2_witness :
    (0 < (subshellMaxMult 1 2 + 1) / 2 ∧ 0 < (subshellMaxAm 1 2).toNat + 1) ∧
    entry (subshellMatrix 1 2) 0 0 =
      (((combinations 2 (atomicSpinOrbitals 1)).countP
        (fun co => keepAt (calcVals co) 0 0) : ℕ) : ℤ) :=
  ⟨⟨by decide, by decide⟩, C5_raw_tally_rule_and_p2.1 1 2 0 0 (by decide) (by decide)⟩
